import Mathlib

/-!
Verification of the reconciliation and aggregation engine of the
United-Pharmacy LMS automation tool (`src/services/excelService.ts`).

Rows coming out of the spreadsheet reader are modelled as ordered
association lists from column name to cell value; cell values are either
strings or (integer) numbers, mirroring the `string | number` cells the
TypeScript code receives.  JavaScript `Map`s are modelled as ordered
association lists with `Map.set` semantics (insertion order kept, in-place
overwrite of an existing key).  Completion rates are modelled as exact
rationals; the TypeScript code divides two small integers, and IEEE
division is exact enough that all comparisons performed by the program
coincide with the rational ones.
-/

namespace ExcelService

/-- A spreadsheet cell value: the TypeScript code receives `string | number`
cells (`LMSDataRow` allows numbers for `Date` and `User/Employee ID`). -/
inductive Value where
  | str : String → Value
  | num : Int → Value
deriving DecidableEq, Repr

/-- A raw or canonical row: an ordered mapping from column name to value,
as produced by `sheet_to_json` and consumed by `processData`. -/
abbrev Row := List (String × Value)

/-- First value stored under key `k`, `none` when the key is absent
(JavaScript `obj[k]` yielding `undefined`). -/
def lookupKey {α : Type} (l : List (String × α)) (k : String) : Option α :=
  match l with
  | [] => none
  | e :: rest => if e.1 = k then some e.2 else lookupKey rest k

/-- `String(v)` on a cell value. -/
def valueToString : Value → String
  | .str s => s
  | .num n => toString n

/-- The characters replaced by a plain space by the first regex of
`cleanText`: `[  ᠎ -​  　﻿]`. -/
def isUnicodeSpace (c : Char) : Bool :=
  c.toNat == 0xA0 || c.toNat == 0x1680 || c.toNat == 0x180E ||
  (decide (0x2000 ≤ c.toNat) && decide (c.toNat ≤ 0x200B)) ||
  c.toNat == 0x202F || c.toNat == 0x205F || c.toNat == 0x3000 ||
  c.toNat == 0xFEFF

/-- The character class `\s` of JavaScript regular expressions
(ECMAScript WhiteSpace ∪ LineTerminator), which is also exactly the set of
characters removed at the ends by `String.prototype.trim`. -/
def isJsWhitespace (c : Char) : Bool :=
  c.toNat == 0x9 || c.toNat == 0xA || c.toNat == 0xB || c.toNat == 0xC ||
  c.toNat == 0xD || c.toNat == 0x20 || c.toNat == 0xA0 || c.toNat == 0x1680 ||
  (decide (0x2000 ≤ c.toNat) && decide (c.toNat ≤ 0x200A)) ||
  c.toNat == 0x2028 || c.toNat == 0x2029 || c.toNat == 0x202F ||
  c.toNat == 0x205F || c.toNat == 0x3000 || c.toNat == 0xFEFF

/-- `.replace(/[ ...]/g, ' ')`: each listed character becomes a space. -/
def replaceUnicodeSpaces (cs : List Char) : List Char :=
  cs.map (fun c => if isUnicodeSpace c then ' ' else c)

/-- `.replace(/\s+/g, ' ')`: each maximal run of `\s` characters becomes a
single space. -/
def collapseWs : List Char → List Char
  | [] => []
  | [c] => [if isJsWhitespace c then ' ' else c]
  | c :: d :: cs =>
    if isJsWhitespace c && isJsWhitespace d then collapseWs (d :: cs)
    else (if isJsWhitespace c then ' ' else c) :: collapseWs (d :: cs)

/-- `String.prototype.trim`: drop `\s` characters from both ends. -/
def jsTrimChars (cs : List Char) : List Char :=
  ((cs.dropWhile isJsWhitespace).reverse.dropWhile isJsWhitespace).reverse

/-- `String.prototype.trim` on a `String`. -/
def jsTrimStr (s : String) : String :=
  ⟨jsTrimChars s.data⟩

/-- `String.prototype.toLowerCase`; the program only feeds it basic-latin
column headers and cell phrases, for which it agrees with `Char.toLower`. -/
def lowerStr (s : String) : String :=
  ⟨s.data.map Char.toLower⟩

/-- The character pipeline of `cleanText`: replace exotic Unicode spaces,
collapse whitespace runs, trim the ends, lowercase. -/
def cleanChars (cs : List Char) : List Char :=
  (jsTrimChars (collapseWs (replaceUnicodeSpaces cs))).map Char.toLower

/-- `cleanText` (`excelService.ts` lines 79-86): `null`/`undefined` become
`""`; any other value is stringified, its exotic Unicode spaces replaced by
plain spaces, whitespace runs collapsed, ends trimmed and the result
lowercased.  The `Option` argument models a possibly-`undefined` input. -/
def cleanText (v : Option Value) : String :=
  match v with
  | none => ""
  | some v => ⟨cleanChars (valueToString v).data⟩

example : cleanText (some (.str "  Completed  ")) = "completed" := by decide
example : cleanText (some (.str " A\u00A0B ")) = "a b" := by decide
example : cleanText (some (.num 123)) = "123" := by decide
example : cleanText none = "" := by decide

/-- The static alias table (`excelService.ts` lines 37-76), in source
(insertion) order. -/
def COLUMN_ALIASES : List (String × String) := [
  ("Email address", "Username (Email)"),
  ("Username", "Username (Email)"),
  ("Email", "Username (Email)"),
  ("User Email", "Username (Email)"),
  ("E-mail", "Username (Email)"),
  ("User ID", "User/Employee ID"),
  ("Employee ID", "User/Employee ID"),
  ("EmployeeID", "User/Employee ID"),
  ("UserID", "User/Employee ID"),
  ("User/EmployeeID", "User/Employee ID"),
  ("ID", "User/Employee ID"),
  ("Emp ID", "User/Employee ID"),
  ("Display Name", "Display Name (Pharmacist name)"),
  ("Pharmacist Name", "Display Name (Pharmacist name)"),
  ("Pharmacist", "Display Name (Pharmacist name)"),
  ("Full Name", "Display Name (Pharmacist name)"),
  ("Name", "Display Name (Pharmacist name)"),
  ("Phone", "Phone number (Whatsapp)"),
  ("Mobile", "Phone number (Whatsapp)"),
  ("Phone Number", "Phone number (Whatsapp)"),
  ("Whatsapp", "Phone number (Whatsapp)"),
  ("Contact No", "Phone number (Whatsapp)"),
  ("Pharmacy ID", "Pharmacy No."),
  ("Pharmacy #", "Pharmacy No."),
  ("Pharmacy Code", "Pharmacy No."),
  ("Supervisor", "Supervisor Name"),
  ("Manager", "Supervisor Name")]

/-- Key resolution of `normalizeKeys` (lines 92-102): trim the key, take the
exact alias entry if present, else the first case-insensitive alias match,
else keep the trimmed key. -/
def resolveAlias (k : String) : String :=
  let ck := jsTrimStr k
  match lookupKey COLUMN_ALIASES ck with
  | some c => c
  | none =>
    match COLUMN_ALIASES.find? (fun p => lowerStr p.1 == lowerStr ck) with
    | some p => p.2
    | none => ck

/-- Assignment `obj[k] = v` on a JavaScript object: overwrite in place when
the key exists (keeping its position in insertion order), else append. -/
def setValue {α : Type} (l : List (String × α)) (k : String) (v : α) :
    List (String × α) :=
  if l.any (fun p => p.1 == k) then
    l.map (fun p => if p.1 == k then (k, v) else p)
  else l ++ [(k, v)]

/-- One step of `normalizeKeys` (lines 104-109): drop keys that resolve to
the empty string; store the value under the canonical key unless a value is
already there, overwriting only an empty-string value with a non-empty one. -/
def nkStep (acc : Row) (entry : String × Value) : Row :=
  let ck := resolveAlias entry.1
  if ck = "" then acc
  else
    match lookupKey acc ck with
    | none => acc ++ [(ck, entry.2)]
    | some old =>
      if old = .str "" ∧ entry.2 ≠ .str "" then setValue acc ck entry.2 else acc

/-- `normalizeKeys` (lines 89-112): rebuild the row with canonical column
names, processing the source keys in their insertion order. -/
def normalizeKeys (row : Row) : Row :=
  row.foldl nkStep []

example : normalizeKeys [("email", .str "a@x.com"), ("Date", .str "2024-01-01")] =
    [("Username (Email)", .str "a@x.com"), ("Date", .str "2024-01-01")] := by decide
example : normalizeKeys [("Email", .str ""), ("Username", .str "x")] =
    [("Username (Email)", .str "x")] := by decide

/-- `Set.add` on a set kept as an insertion-ordered duplicate-free list. -/
def addKey (acc : List String) (k : String) : List String :=
  if acc.contains k then acc else acc ++ [k]

/-- Union of the column names of all combined LMS rows, in first-seen order
(`allKeys`, lines 164-166). -/
def allKeys (rows : List Row) : List String :=
  rows.foldl (fun acc row => row.foldl (fun acc2 e => addKey acc2 e.1) acc) []

/-- Membership test of the three status phrases of lines 168-178. -/
def isLessonValue (s : String) : Bool :=
  s == "completed (achieved pass grade)" || s == "not completed" || s == "completed"

/-- The inferred lesson-column set (lines 172-184): the columns under which
some combined row holds one of the three status phrases, in `allKeys` order. -/
def lessonColumns (rows : List Row) : List String :=
  (allKeys rows).filter
    (fun k => rows.any (fun row => isLessonValue (cleanText (lookupKey row k))))

/-- The two phrases counted as completed by `calculateRate` (line 192). -/
def isCompletedValue (s : String) : Bool :=
  s == "completed (achieved pass grade)" || s == "completed"

/-- `calculateRate` (lines 186-197): 0 on an empty lesson-column set, else
the number of completed lesson columns over the size of the set. -/
def calculateRate (cols : List String) (row : Row) : ℚ :=
  if cols.length = 0 then 0
  else
    (cols.countP (fun c => isCompletedValue (cleanText (lookupKey row c))) : ℚ) /
      (cols.length : ℚ)

/-- Civil date to days since the Unix epoch (proleptic Gregorian calendar),
used to model the timestamp `Date.UTC` assigns to an ISO `YYYY-MM-DD` string. -/
def daysFromCivil (y : Int) (m : Int) (d : Int) : Int :=
  let y2 := if m ≤ 2 then y - 1 else y
  let era := (if 0 ≤ y2 then y2 else y2 - 399) / 400
  let yoe := y2 - era * 400
  let mp := (m + 9) % 12
  let doy := (153 * mp + 2) / 5 + d - 1
  let doe := yoe * 365 + yoe / 4 - yoe / 100 + doy
  era * 146097 + doe - 719468

/-- Number of days of month `m` of year `y` (Gregorian). -/
def daysInMonth (y : Int) (m : Int) : Int :=
  if m = 2 then
    if y % 4 = 0 ∧ (y % 100 ≠ 0 ∨ y % 400 = 0) then 29 else 28
  else if m = 4 ∨ m = 6 ∨ m = 9 ∨ m = 11 then 30
  else 31

/-- Digits-only test. -/
def allDigits (cs : List Char) : Bool :=
  cs.all (fun c => c.isDigit)

/-- Value of a digit string. -/
def digitsToNat (cs : List Char) : Nat :=
  cs.foldl (fun acc c => acc * 10 + (c.toNat - 48)) 0

/-- Modelled platform behavior: the UTC millisecond timestamp JavaScript's
`new Date(s)` assigns to a date-only ISO string `YYYY-MM-DD`; `none` (NaN)
for out-of-range fields.  Other string shapes the runtime may or may not
parse are conservatively sent to `none`; the program's data uses the ISO
shape. -/
def parseIsoDate (s : String) : Option Int :=
  match s.data with
  | [y1, y2, y3, y4, d1, m1, m2, d2, dd1, dd2] =>
    if d1 = '-' ∧ d2 = '-' ∧ allDigits [y1, y2, y3, y4] ∧ allDigits [m1, m2] ∧
        allDigits [dd1, dd2] then
      let y : Int := digitsToNat [y1, y2, y3, y4]
      let m : Int := digitsToNat [m1, m2]
      let d : Int := digitsToNat [dd1, dd2]
      if 1 ≤ m ∧ m ≤ 12 ∧ 1 ≤ d ∧ d ≤ daysInMonth y m then
        some (daysFromCivil y m d * 86400000)
      else none
    else none
  | _ => none

/-- Modelled platform behavior: `new Date(v).getTime()`, with `none`
standing for NaN.  A numeric cell is taken as a millisecond timestamp; a
string cell is parsed as a date-only ISO string; a missing cell yields an
invalid date. -/
def jsDateGetTime : Option Value → Option Int
  | some (.num n) => some n
  | some (.str s) => parseIsoDate s
  | none => none

/-- Integer-numeral test with optional sign. -/
def intNumeral (cs : List Char) : Bool :=
  match cs with
  | '-' :: rest => rest ≠ [] && allDigits rest
  | '+' :: rest => rest ≠ [] && allDigits rest
  | _ => cs ≠ [] && allDigits cs

/-- Modelled platform behavior: JavaScript `Number(v)` on the value shapes
the program receives, with `none` standing for NaN.  A blank string is 0, an
integer numeral is its value; non-numeric strings are NaN. -/
def jsToNumber : Option Value → Option Int
  | some (.num n) => some n
  | some (.str s) =>
    let t := (jsTrimStr s).data
    if t = [] then some 0
    else if intNumeral t then
      some (match t with
            | '-' :: rest => -(digitsToNat rest : Int)
            | '+' :: rest => (digitsToNat rest : Int)
            | _ => (digitsToNat t : Int))
    else none
  | none => none

/-- JavaScript `x || y` over a number-or-NaN left operand: keep `x` unless
it is NaN or 0. -/
def orFalsy (x : Option Int) (y : Int) : Int :=
  match x with
  | some n => if n = 0 then y else n
  | none => y

/-- The three-step date fallback of lines 215-216:
`new Date(v).getTime() || Number(v) || 0`. -/
def resolvedDate (v : Option Value) : Int :=
  orFalsy (jsDateGetTime v) (orFalsy (jsToNumber v) 0)

example : resolvedDate (some (.str "2024-01-01")) = 1704067200000 := by decide
example : resolvedDate (some (.str "2024-02-01")) = 1706745600000 := by decide
example : resolvedDate (some (.str "nonsense")) = 0 := by decide
example : resolvedDate none = 0 := by decide

/-- A deduplication entry: the stored row together with its score
(`{ row, rate }` of line 200). -/
structure LmsEntry where
  row : Row
  rate : ℚ
deriving DecidableEq, Repr

/-- The deduplication map, a JavaScript `Map` in insertion order. -/
abbrev LmsMap := List (String × LmsEntry)

/-- `Map.set` semantics: overwrite in place, else append. -/
def setEntry {α : Type} (m : List (String × α)) (k : String) (v : α) :
    List (String × α) :=
  if m.any (fun p => p.1 == k) then
    m.map (fun p => if p.1 == k then (k, v) else p)
  else m ++ [(k, v)]

/-- One step of the deduplication loop (lines 202-224).  Rows whose
`Username (Email)` is missing, falsy, or not a string are skipped; so are
rows whose normalized key is empty or the literal `"undefined"`.  A new key
is inserted; an existing key is replaced when the new score is strictly
greater, or on a score tie when the new resolved date is strictly later. -/
def dedupStep (cols : List String) (m : LmsMap) (row : Row) : LmsMap :=
  match lookupKey row "Username (Email)" with
  | some (.str s) =>
    if s = "" then m
    else
      let emailKey := cleanText (some (.str s))
      if emailKey = "" ∨ emailKey = "undefined" then m
      else
        let rate := calculateRate cols row
        match lookupKey m emailKey with
        | some ex =>
          if rate > ex.rate then setEntry m emailKey ⟨row, rate⟩
          else if rate = ex.rate then
            if resolvedDate (lookupKey row "Date") >
                resolvedDate (lookupKey ex.row "Date") then
              setEntry m emailKey ⟨row, rate⟩
            else m
          else m
        | none => m ++ [(emailKey, ⟨row, rate⟩)]
  | _ => m

/-- The LMS deduplication map (lines 200-224), built over the combined rows
in order. -/
def lmsMap (cols : List String) (rows : List Row) : LmsMap :=
  rows.foldl (dedupStep cols) []

/-- JavaScript truthiness of a cell value. -/
def truthy : Value → Bool
  | .str s => s ≠ ""
  | .num n => n ≠ 0

/-- JavaScript truthiness of a possibly-`undefined` cell value. -/
def truthyO : Option Value → Bool
  | some v => truthy v
  | none => false

/-- One step of the master indexing loop (lines 227-231): any truthy email
value (no string check here) indexes the row under its normalized key,
last write wins. -/
def masterStep (m : List (String × Row)) (row : Row) : List (String × Row) :=
  match lookupKey row "Username (Email)" with
  | some v => if truthy v then setEntry m (cleanText (some v)) row else m
  | none => m

/-- The master map of lines 227-231. -/
def masterMap (master : List Row) : List (String × Row) :=
  master.foldl masterStep []

/-- Field-level precedence of lines 242-251:
`masterRow?.[f] || lmsRow[f] || ''`. -/
def mergeField (mrow : Option Row) (lrow : Row) (f : String) : Value :=
  let mv := mrow.bind (fun m => lookupKey m f)
  if truthyO mv then mv.getD (.str "")
  else
    let lv := lookupKey lrow f
    if truthyO lv then lv.getD (.str "") else .str ""

/-- One final report row (the `FinalReportRow` interface): every field a
string except the completion rate. -/
structure FinalReportRow where
  district : String
  city : String
  supervisorName : String
  pharmacyNo : String
  employeeId : String
  email : String
  displayName : String
  phone : String
  scfhs : String
  completionRate : ℚ
deriving DecidableEq, Repr

/-- The merged row built for one deduplication entry (lines 242-264),
before the emission check. -/
def finalRowOf (mm : List (String × Row)) (kv : String × LmsEntry) :
    FinalReportRow :=
  let lmsRow := kv.2.row
  let mrow := lookupKey mm kv.1
  { district := valueToString (mergeField mrow lmsRow "District")
    city := valueToString (mergeField mrow lmsRow "City")
    supervisorName := valueToString (mergeField mrow lmsRow "Supervisor Name")
    pharmacyNo := valueToString (mergeField mrow lmsRow "Pharmacy No.")
    employeeId := valueToString (mergeField mrow lmsRow "User/Employee ID")
    email := valueToString (mergeField mrow lmsRow "Username (Email)")
    displayName :=
      valueToString (mergeField mrow lmsRow "Display Name (Pharmacist name)")
    phone := valueToString (mergeField mrow lmsRow "Phone number (Whatsapp)")
    scfhs := valueToString (mergeField mrow lmsRow "SCFHS")
    completionRate := kv.2.rate }

/-- The emission test of line 253: `employeeId || email || displayName` on
the merged (pre-`String()`) values. -/
def emitCheck (mm : List (String × Row)) (kv : String × LmsEntry) : Bool :=
  truthy (mergeField (lookupKey mm kv.1) kv.2.row "User/Employee ID") ||
  truthy (mergeField (lookupKey mm kv.1) kv.2.row "Username (Email)") ||
  truthy (mergeField (lookupKey mm kv.1) kv.2.row "Display Name (Pharmacist name)")

/-- One step of the report loop (lines 236-267): push the merged row iff one
of the id, email and display-name values is truthy (line 253). -/
def buildFinal (mm : List (String × Row)) (acc : List FinalReportRow)
    (kv : String × LmsEntry) : List FinalReportRow :=
  if emitCheck mm kv then acc ++ [finalRowOf mm kv] else acc

/-- `processData` (lines 154-270): combine the two LMS inputs, infer lesson
columns, deduplicate by identity key, index the master sheet, and emit the
merged rows in map order. -/
def processData (lms1 lms2 master : List Row) : List FinalReportRow :=
  let combined := lms1 ++ lms2
  let cols := lessonColumns combined
  (lmsMap cols combined).foldl (buildFinal (masterMap master)) []

/-- The dashboard summary of `generateExcelFile` (lines 317-327). -/
structure Summary where
  total : Nat
  completed : Nat
  inProgress : Nat
  notStarted : Nat
  pct : ℚ
deriving DecidableEq, Repr

/-- Lines 317-327: the four counts and the overall completion percentage
(`total > 0 ? completed / total : 0`).  The literal `0.999` is the rational
999/1000. -/
def summary (data : List FinalReportRow) : Summary :=
  let total := data.length
  let completed :=
    (data.filter (fun d => decide ((999 : ℚ)/1000 ≤ d.completionRate))).length
  let inProgress :=
    (data.filter (fun d =>
      decide (0 < d.completionRate ∧ d.completionRate < (999 : ℚ)/1000))).length
  let notStarted := (data.filter (fun d => decide (d.completionRate = 0))).length
  { total, completed, inProgress, notStarted,
    pct := if 0 < total then (completed : ℚ) / (total : ℚ) else 0 }

/-- One group of `createPivotTable` (line 405): running totals for one
group-by key. -/
structure GroupStats where
  key : String
  total : Nat
  comp : Nat
  prog : Nat
  notStart : Nat
deriving DecidableEq, Repr

/-- Line 407: `String(row[groupByField] || '(Blank)')` on a string field. -/
def pivotKey (field : FinalReportRow → String) (r : FinalReportRow) : String :=
  if field r = "" then "(Blank)" else field r

/-- Lines 409-412: bump the counters of a group with one row. -/
def bumpGroup (r : FinalReportRow) (g : GroupStats) : GroupStats :=
  if (999 : ℚ)/1000 ≤ r.completionRate then
    { g with total := g.total + 1, comp := g.comp + 1 }
  else if 0 < r.completionRate ∧ r.completionRate < (999 : ℚ)/1000 then
    { g with total := g.total + 1, prog := g.prog + 1 }
  else
    { g with total := g.total + 1, notStart := g.notStart + 1 }

/-- One row of the grouping fold of lines 406-413: bump the row's group in
place, or open a new group at the end. -/
def groupStep (field : FinalReportRow → String) (gs : List GroupStats)
    (r : FinalReportRow) : List GroupStats :=
  let k := pivotKey field r
  if gs.any (fun g => g.key == k) then
    gs.map (fun g => if g.key == k then bumpGroup r g else g)
  else gs ++ [bumpGroup r ⟨k, 0, 0, 0, 0⟩]

/-- Lines 405-413: fold the rows into groups keyed by the (blank-substituted)
field value, in first-encountered order. -/
def groupsOf (field : FinalReportRow → String) (data : List FinalReportRow) :
    List GroupStats :=
  data.foldl (groupStep field) []

/-- Insert a group into a list sorted by descending total, after all groups
with a total at least as large. -/
def insertDesc (g : GroupStats) : List GroupStats → List GroupStats
  | [] => [g]
  | h :: t => if g.total ≤ h.total then h :: insertDesc g t else g :: h :: t

/-- Line 415: `.sort((a, b) => b[1].total - a[1].total)` — a stable sort by
descending total (JavaScript array sort is stable, and any stable sort under
the same comparison produces this list). -/
def sortGroups (l : List GroupStats) : List GroupStats :=
  l.foldl (fun acc g => insertDesc g acc) []

/-- `createPivotTable` (lines 404-417), up to the presentational mapping to
cell arrays: the sorted group statistics. -/
def createPivotTable (field : FinalReportRow → String)
    (data : List FinalReportRow) : List GroupStats :=
  sortGroups (groupsOf field data)

/-- Line 416: the completion fraction shown for a group. -/
def groupPct (g : GroupStats) : ℚ :=
  if g.total ≠ 0 then (g.comp : ℚ) / (g.total : ℚ) else 0

/-! ## Concrete sample data -/

/-- Raw LMS sheet A row of the end-to-end scenario. -/
def lmsSheetARaw : Row :=
  [("email", .str "a@x.com"), ("Date", .str "2024-01-01"),
   ("Lesson1", .str "Completed"), ("Lesson2", .str "Not Completed")]

/-- Raw LMS sheet B row of the end-to-end scenario. -/
def lmsSheetBRaw : Row :=
  [("email", .str "A@X.com"), ("Date", .str "2024-02-01"),
   ("Lesson1", .str "Completed"), ("Lesson2", .str "Completed")]

/-- Raw master sheet row of the end-to-end scenario. -/
def masterSheetRaw : Row :=
  [("Username (Email)", .str "a@x.com"), ("District", .str "Riyadh")]

/-- LMS sheet A row after alias resolution. -/
def lmsRowA : Row :=
  [("Username (Email)", .str "a@x.com"), ("Date", .str "2024-01-01"),
   ("Lesson1", .str "Completed"), ("Lesson2", .str "Not Completed")]

/-- LMS sheet B row after alias resolution. -/
def lmsRowB : Row :=
  [("Username (Email)", .str "A@X.com"), ("Date", .str "2024-02-01"),
   ("Lesson1", .str "Completed"), ("Lesson2", .str "Completed")]

/-! ## Claims -/

/-- C1: for the scenario where LMS sheet A holds the single row
{email "a@x.com", Date "2024-01-01", Lesson1 "Completed", Lesson2
"Not Completed"}, LMS sheet B holds {email "A@X.com", Date "2024-02-01",
Lesson1 "Completed", Lesson2 "Completed"}, and the master sheet holds
{Username (Email) "a@x.com", District "Riyadh"}, `processData` applied to
the alias-resolved rows returns exactly one final row, whose District is
"Riyadh" and whose Completion Rate is 1. -/
theorem c1_end_to_end :
    (processData [normalizeKeys lmsSheetARaw] [normalizeKeys lmsSheetBRaw]
        [normalizeKeys masterSheetRaw]).length = 1 ∧
    (processData [normalizeKeys lmsSheetARaw] [normalizeKeys lmsSheetBRaw]
        [normalizeKeys masterSheetRaw]).head?.map FinalReportRow.district =
      some "Riyadh" ∧
    (processData [normalizeKeys lmsSheetARaw] [normalizeKeys lmsSheetBRaw]
        [normalizeKeys masterSheetRaw]).head?.map FinalReportRow.completionRate =
      some 1 := by
  have hA : normalizeKeys lmsSheetARaw = lmsRowA := by decide
  have hB : normalizeKeys lmsSheetBRaw = lmsRowB := by decide
  have hM : normalizeKeys masterSheetRaw = masterSheetRaw := by decide
  have hcols : lessonColumns [lmsRowA, lmsRowB] = ["Lesson1", "Lesson2"] := by decide
  have hrA : calculateRate ["Lesson1", "Lesson2"] lmsRowA = 1/2 := by
    have h2 : (["Lesson1", "Lesson2"].countP
        (fun c => isCompletedValue (cleanText (lookupKey lmsRowA c)))) = 1 := by decide
    rw [calculateRate, if_neg (by decide), h2]; norm_num
  have hrB : calculateRate ["Lesson1", "Lesson2"] lmsRowB = 1 := by
    have h2 : (["Lesson1", "Lesson2"].countP
        (fun c => isCompletedValue (cleanText (lookupKey lmsRowB c)))) = 2 := by decide
    rw [calculateRate, if_neg (by decide), h2]; norm_num
  have hs1 : dedupStep ["Lesson1", "Lesson2"] [] lmsRowA =
      [("a@x.com", ⟨lmsRowA, (1 : ℚ)/2⟩)] := by
    have hl : lookupKey lmsRowA "Username (Email)" = some (.str "a@x.com") := by decide
    have hc : cleanText (some (.str "a@x.com")) = "a@x.com" := by decide
    rw [dedupStep, hl]
    simp [hc, lookupKey, hrA]
  have hs2 : dedupStep ["Lesson1", "Lesson2"]
      [("a@x.com", ⟨lmsRowA, (1 : ℚ)/2⟩)] lmsRowB =
      [("a@x.com", ⟨lmsRowB, (1 : ℚ)⟩)] := by
    have hl : lookupKey lmsRowB "Username (Email)" = some (.str "A@X.com") := by decide
    have hc : cleanText (some (.str "A@X.com")) = "a@x.com" := by decide
    rw [dedupStep, hl]
    simp [hc, lookupKey, hrB, setEntry]
    norm_num
  have hmap : lmsMap ["Lesson1", "Lesson2"] [lmsRowA, lmsRowB] =
      [("a@x.com", ⟨lmsRowB, (1 : ℚ)⟩)] := by
    rw [lmsMap]
    simp only [List.foldl_cons, List.foldl_nil, hs1, hs2]
  have hmm : masterMap [masterSheetRaw] = [("a@x.com", masterSheetRaw)] := by decide
  have hp : processData [normalizeKeys lmsSheetARaw] [normalizeKeys lmsSheetBRaw]
      [normalizeKeys masterSheetRaw] =
      [finalRowOf [("a@x.com", masterSheetRaw)] ("a@x.com", ⟨lmsRowB, (1 : ℚ)⟩)] := by
    rw [hA, hB, hM]
    simp only [processData, List.singleton_append, List.cons_append, List.nil_append]
    rw [hcols, hmap, hmm]
    simp only [List.foldl_cons, List.foldl_nil]
    rw [buildFinal]
    rw [if_pos (by decide)]
    simp
  rw [hp]
  refine ⟨rfl, ?_, rfl⟩
  show some (finalRowOf [("a@x.com", masterSheetRaw)]
      ("a@x.com", ⟨lmsRowB, (1 : ℚ)⟩)).district = some "Riyadh"
  have : (finalRowOf [("a@x.com", masterSheetRaw)]
      ("a@x.com", ⟨lmsRowB, (1 : ℚ)⟩)).district = "Riyadh" := by decide
  rw [this]

/-! ## Association-list and key-set helper lemmas -/

theorem mem_of_lookupKey_eq_some {α : Type} {l : List (String × α)} {k : String}
    {v : α} (h : lookupKey l k = some v) : (k, v) ∈ l := by
  induction l with
  | nil => simp [lookupKey] at h
  | cons e rest ih =>
    rw [lookupKey] at h
    by_cases he : e.1 = k
    · rw [if_pos he] at h
      injection h with h
      have hkv : (k, v) = e := by
        rw [Prod.ext_iff]
        exact ⟨he.symm, h.symm⟩
      rw [hkv]
      exact List.mem_cons_self _ _
    · rw [if_neg he] at h
      exact List.mem_cons_of_mem _ (ih h)

theorem lookupKey_isSome_of_mem {α : Type} {l : List (String × α)} {k : String}
    {v : α} (h : (k, v) ∈ l) : ∃ w, lookupKey l k = some w := by
  induction l with
  | nil => simp at h
  | cons e rest ih =>
    rw [lookupKey]
    by_cases he : e.1 = k
    · exact ⟨e.2, if_pos he⟩
    · rw [if_neg he]
      rcases List.mem_cons.1 h with h | h
      · exact absurd (congrArg Prod.fst h.symm) he
      · exact ih h

theorem mem_addKey {acc : List String} {k x : String} :
    x ∈ addKey acc k ↔ x ∈ acc ∨ x = k := by
  unfold addKey
  by_cases h : acc.contains k
  · rw [if_pos h]
    have hk : k ∈ acc := by
      simpa using h
    constructor
    · exact Or.inl
    · rintro (hx | rfl)
      · exact hx
      · exact hk
  · rw [if_neg h]
    simp

theorem mem_foldl_addKey (row : Row) :
    ∀ (acc : List String) (x : String),
      x ∈ row.foldl (fun acc2 e => addKey acc2 e.1) acc ↔
        x ∈ acc ∨ ∃ v, (x, v) ∈ row := by
  induction row with
  | nil => simp
  | cons e rest ih =>
    intro acc x
    rw [List.foldl_cons, ih, mem_addKey]
    constructor
    · rintro ((hx | rfl) | ⟨v, hv⟩)
      · exact Or.inl hx
      · exact Or.inr ⟨e.2, by simp⟩
      · exact Or.inr ⟨v, List.mem_cons_of_mem _ hv⟩
    · rintro (hx | ⟨v, hv⟩)
      · exact Or.inl (Or.inl hx)
      · rcases List.mem_cons.1 hv with h | h
        · exact Or.inl (Or.inr (congrArg Prod.fst h))
        · exact Or.inr ⟨v, h⟩

theorem mem_allKeys_iff (rows : List Row) (x : String) :
    x ∈ allKeys rows ↔ ∃ row ∈ rows, ∃ v, (x, v) ∈ row := by
  have aux : ∀ (rs : List Row) (acc : List String),
      x ∈ rs.foldl (fun a r => r.foldl (fun a2 e => addKey a2 e.1) a) acc ↔
        x ∈ acc ∨ ∃ row ∈ rs, ∃ v, (x, v) ∈ row := by
    intro rs
    induction rs with
    | nil => simp
    | cons r rest ih =>
      intro acc
      rw [List.foldl_cons, ih, mem_foldl_addKey]
      constructor
      · rintro ((hx | ⟨v, hv⟩) | ⟨row, hrow, v, hv⟩)
        · exact Or.inl hx
        · exact Or.inr ⟨r, by simp, v, hv⟩
        · exact Or.inr ⟨row, List.mem_cons_of_mem _ hrow, v, hv⟩
      · rintro (hx | ⟨row, hrow, v, hv⟩)
        · exact Or.inl (Or.inl hx)
        · rcases List.mem_cons.1 hrow with h | h
          · exact Or.inl (Or.inr ⟨v, h ▸ hv⟩)
          · exact Or.inr ⟨row, h, v, hv⟩
  rw [allKeys, aux]
  simp

/-- C4: a column name is in the inferred lesson-column set iff some combined
row's normalized value under that column is exactly one of the three fixed
phrases; in particular a column under which no row normalizes to one of the
phrases is never included. -/
theorem c4_lesson_column_inference (rows : List Row) (k : String) :
    k ∈ lessonColumns rows ↔
      ∃ row ∈ rows,
        cleanText (lookupKey row k) = "completed (achieved pass grade)" ∨
        cleanText (lookupKey row k) = "completed" ∨
        cleanText (lookupKey row k) = "not completed" := by
  have hval : ∀ s, isLessonValue s = true ↔
      s = "completed (achieved pass grade)" ∨ s = "completed" ∨
      s = "not completed" := by
    intro s
    simp [isLessonValue]
    tauto
  rw [lessonColumns, List.mem_filter]
  constructor
  · rintro ⟨-, hp⟩
    rcases List.any_eq_true.1 hp with ⟨row, hrow, hlv⟩
    exact ⟨row, hrow, (hval _).1 hlv⟩
  · rintro ⟨row, hrow, hphrase⟩
    have hsome : ∃ v, lookupKey row k = some v := by
      cases hl : lookupKey row k with
      | none =>
        rw [hl] at hphrase
        rcases hphrase with h | h | h <;> exact absurd h (by decide)
      | some v => exact ⟨v, rfl⟩
    rcases hsome with ⟨v, hv⟩
    refine ⟨(mem_allKeys_iff rows k).2 ⟨row, hrow, v, mem_of_lookupKey_eq_some hv⟩, ?_⟩
    exact List.any_eq_true.2 ⟨row, hrow, (hval _).2 hphrase⟩

/-- C5: the per-row completion score is 0 on an empty lesson-column set, and
otherwise the number of lesson columns normalizing to "completed" or
"completed (achieved pass grade)" divided by the size of the set; it always
lies in [0, 1], is 1 when every lesson column is completed, and is 0 when
none is. -/
theorem c5_completion_score (cols : List String) (row : Row) :
    (∀ s, isCompletedValue s = true ↔
      s = "completed (achieved pass grade)" ∨ s = "completed") ∧
    (cols = [] → calculateRate cols row = 0) ∧
    (cols ≠ [] → calculateRate cols row =
      (cols.countP (fun c => isCompletedValue (cleanText (lookupKey row c))) : ℚ) /
        (cols.length : ℚ)) ∧
    0 ≤ calculateRate cols row ∧ calculateRate cols row ≤ 1 ∧
    (cols ≠ [] →
      (∀ c ∈ cols, isCompletedValue (cleanText (lookupKey row c)) = true) →
      calculateRate cols row = 1) ∧
    ((∀ c ∈ cols, isCompletedValue (cleanText (lookupKey row c)) = false) →
      calculateRate cols row = 0) := by
  have hbridge : ∀ s, isCompletedValue s = true ↔
      s = "completed (achieved pass grade)" ∨ s = "completed" := by
    intro s
    simp [isCompletedValue]
  by_cases hnil : cols = []
  · subst hnil
    refine ⟨hbridge, fun _ => rfl, fun h => absurd rfl h, le_refl _, ?_, ?_, fun _ => rfl⟩
    · rw [calculateRate]
      norm_num
    · exact fun h => absurd rfl h
  · have hlen : cols.length ≠ 0 := fun h => hnil (List.length_eq_zero.1 h)
    have hlenQ : (0 : ℚ) < (cols.length : ℚ) := by
      exact_mod_cast Nat.pos_of_ne_zero hlen
    have hform : calculateRate cols row =
        (cols.countP (fun c => isCompletedValue (cleanText (lookupKey row c))) : ℚ) /
          (cols.length : ℚ) := by
      rw [calculateRate, if_neg hlen]
    refine ⟨hbridge, fun h => absurd h hnil, fun _ => hform, ?_, ?_, ?_, ?_⟩
    · rw [hform]
      positivity
    · rw [hform]
      rw [div_le_one hlenQ]
      exact_mod_cast List.countP_le_length _
    · intro _ hall
      rw [hform]
      have : cols.countP (fun c => isCompletedValue (cleanText (lookupKey row c))) =
          cols.length := List.countP_eq_length.2 hall
      rw [this]
      exact div_self (ne_of_gt hlenQ)
    · intro hnone
      rw [hform]
      have : cols.countP (fun c => isCompletedValue (cleanText (lookupKey row c))) = 0 := by
        rw [List.countP_eq_zero]
        intro c hc
        rw [hnone c hc]
        exact Bool.false_ne_true
      rw [this]
      norm_num

/-- Closed witness for the scoring claim: empty set gives 0; one completed
lesson column gives 1; one uncompleted lesson column gives 0. -/
theorem c5_completion_score_witness :
    calculateRate [] [("Lesson1", .str "Completed")] = 0 ∧
    calculateRate ["Lesson1"] [("Lesson1", .str "Completed")] = 1 ∧
    calculateRate ["Lesson1"] [("Lesson1", .str "nope")] = 0 :=
  ⟨(c5_completion_score [] [("Lesson1", .str "Completed")]).2.1 rfl,
   (c5_completion_score ["Lesson1"] [("Lesson1", .str "Completed")]).2.2.2.2.2.1
     (by decide) (by decide),
   (c5_completion_score ["Lesson1"] [("Lesson1", .str "nope")]).2.2.2.2.2.2
     (by decide)⟩

/-- Unfolding of `dedupStep` on a row whose email cell is a string. -/
theorem dedupStep_str (cols : List String) (m : LmsMap) (row : Row) (s : String)
    (h : lookupKey row "Username (Email)" = some (.str s)) :
    dedupStep cols m row =
      if s = "" then m
      else
        let emailKey := cleanText (some (.str s))
        if emailKey = "" ∨ emailKey = "undefined" then m
        else
          let rate := calculateRate cols row
          match lookupKey m emailKey with
          | some ex =>
            if rate > ex.rate then setEntry m emailKey ⟨row, rate⟩
            else if rate = ex.rate then
              if resolvedDate (lookupKey row "Date") >
                  resolvedDate (lookupKey ex.row "Date") then
                setEntry m emailKey ⟨row, rate⟩
              else m
            else m
          | none => m ++ [(emailKey, ⟨row, rate⟩)] := by
  rw [dedupStep, h]

/-- C2: one step of the deduplication loop over the concatenated LMS rows:
a row whose normalized email key is empty or the literal "undefined" leaves
the map unchanged; a fresh key appends the row with its score; an existing
key is overwritten exactly when the new score is strictly greater, or the
scores tie and the new row's three-step-resolved date is strictly later;
on a score-and-date tie the first-seen row is kept. -/
theorem c2_identity_dedup (cols : List String) (m : LmsMap) (row : Row)
    (s : String) (hemail : lookupKey row "Username (Email)" = some (.str s)) :
    (cleanText (some (.str s)) = "" ∨ cleanText (some (.str s)) = "undefined" →
      dedupStep cols m row = m) ∧
    (cleanText (some (.str s)) ≠ "" → cleanText (some (.str s)) ≠ "undefined" →
      lookupKey m (cleanText (some (.str s))) = none →
      dedupStep cols m row =
        m ++ [(cleanText (some (.str s)), ⟨row, calculateRate cols row⟩)]) ∧
    (∀ ex, cleanText (some (.str s)) ≠ "" → cleanText (some (.str s)) ≠ "undefined" →
      lookupKey m (cleanText (some (.str s))) = some ex →
      dedupStep cols m row =
        if calculateRate cols row > ex.rate ∨
            (calculateRate cols row = ex.rate ∧
              resolvedDate (lookupKey row "Date") >
                resolvedDate (lookupKey ex.row "Date")) then
          setEntry m (cleanText (some (.str s))) ⟨row, calculateRate cols row⟩
        else m) := by
  rw [dedupStep_str cols m row s hemail]
  by_cases hs : s = ""
  · subst hs
    have hk : cleanText (some (.str "")) = "" := by decide
    rw [if_pos rfl]
    exact ⟨fun _ => rfl, fun h1 => absurd hk h1, fun ex h1 => absurd hk h1⟩
  · rw [if_neg hs]
    simp only []
    refine ⟨fun h => if_pos h, fun h1 h2 hnone => ?_, fun ex h1 h2 hex => ?_⟩
    · rw [if_neg (not_or.2 ⟨h1, h2⟩), hnone]
    · rw [if_neg (not_or.2 ⟨h1, h2⟩), hex]
      dsimp only
      by_cases hgt : calculateRate cols row > ex.rate
      · rw [if_pos hgt, if_pos (Or.inl hgt)]
      · rw [if_neg hgt]
        by_cases heq : calculateRate cols row = ex.rate
        · rw [if_pos heq]
          by_cases hd : resolvedDate (lookupKey row "Date") >
              resolvedDate (lookupKey ex.row "Date")
          · rw [if_pos hd, if_pos (Or.inr ⟨heq, hd⟩)]
          · rw [if_neg hd, if_neg]
            rintro (h | ⟨-, h⟩)
            · exact hgt h
            · exact hd h
        · rw [if_neg heq, if_neg]
          rintro (h | ⟨h, -⟩)
          · exact hgt h
          · exact heq h

/-- Closed witness for the deduplication claim: a whitespace-only email is
skipped, a fresh key is recorded, and on a score tie a later-dated row
overwrites the stored one. -/
theorem c2_identity_dedup_witness :
    dedupStep [] [] [("Username (Email)", .str "  ")] = [] ∧
    dedupStep [] [] [("Username (Email)", .str "b@y.com")] =
      [("b@y.com", ⟨[("Username (Email)", .str "b@y.com")],
        calculateRate [] [("Username (Email)", .str "b@y.com")]⟩)] ∧
    dedupStep []
      [("b@y.com", ⟨[("Username (Email)", .str "b@y.com"),
        ("Date", .str "2024-01-01")], 0⟩)]
      [("Username (Email)", .str "b@y.com"), ("Date", .str "2024-02-01")] =
      [("b@y.com", ⟨[("Username (Email)", .str "b@y.com"),
        ("Date", .str "2024-02-01")],
        calculateRate [] [("Username (Email)", .str "b@y.com"),
          ("Date", .str "2024-02-01")]⟩)] := by
  refine ⟨(c2_identity_dedup [] [] _ "  " (by decide)).1 (Or.inl (by decide)),
    (c2_identity_dedup [] [] _ "b@y.com" (by decide)).2.1
      (by decide) (by decide) rfl, ?_⟩
  rw [(c2_identity_dedup [] _ _ "b@y.com" (by decide)).2.2
    ⟨[("Username (Email)", .str "b@y.com"), ("Date", .str "2024-01-01")], 0⟩
    (by decide) (by decide) (by decide)]
  rw [if_pos]
  · decide
  · refine Or.inr ⟨rfl, ?_⟩
    decide

/-- C10 (implicit): a combined LMS row whose `Username (Email)` cell is
present but numeric rather than a string is skipped by the deduplication
step — it contributes no map entry and no final report row — even though
normalizing the numeric value would yield a non-empty identity key. -/
theorem c10_nonstring_email_skipped :
    (∀ (cols : List String) (m : LmsMap) (row : Row) (n : Int),
      lookupKey row "Username (Email)" = some (.num n) →
      dedupStep cols m row = m ∧
        ∀ master, processData [row] [] master = []) ∧
    cleanText (some (.num 123)) ≠ "" := by
  constructor
  · intro cols m row n h
    have hskip : ∀ m2 : LmsMap, dedupStep cols m2 row = m2 := by
      intro m2
      rw [dedupStep, h]
    refine ⟨hskip m, fun master => ?_⟩
    have hmap : ∀ cs, lmsMap cs [row] = [] := by
      intro cs
      rw [lmsMap, List.foldl_cons, List.foldl_nil, dedupStep, h]
    rw [processData]
    simp only [List.append_nil]
    rw [hmap]
    rfl
  · decide

/-- Closed witness for the non-string-email claim at a concrete row. -/
theorem c10_nonstring_email_skipped_witness :
    dedupStep [] [] [("Username (Email)", .num 42)] = [] ∧
    processData [[("Username (Email)", .num 42)]] [] [] = [] :=
  ⟨(c10_nonstring_email_skipped.1 [] [] [("Username (Email)", .num 42)] 42
      (by decide)).1,
   (c10_nonstring_email_skipped.1 [] [] [("Username (Email)", .num 42)] 42
      (by decide)).2 []⟩

/-! ## Normalization facts about `cleanText` -/

theorem toNat_toLower (c : Char) :
    (Char.toLower c).toNat =
      if 65 ≤ c.toNat ∧ c.toNat ≤ 90 then c.toNat + 32 else c.toNat := by
  rw [Char.toLower]
  by_cases h : 65 ≤ c.toNat ∧ c.toNat ≤ 90
  · rw [if_pos h, if_pos h]
    have hv : (c.toNat + 32).isValidChar := Or.inl (by omega)
    rw [Char.ofNat, dif_pos hv]
    rfl
  · rw [if_neg h, if_neg h]

theorem toLower_eq_self {c : Char} (h : ¬(65 ≤ c.toNat ∧ c.toNat ≤ 90)) :
    Char.toLower c = c := by
  rw [Char.toLower, if_neg h]

theorem toLower_toLower (c : Char) :
    Char.toLower (Char.toLower c) = Char.toLower c := by
  apply toLower_eq_self
  rw [toNat_toLower]
  by_cases h : 65 ≤ c.toNat ∧ c.toNat ≤ 90
  · rw [if_pos h]
    omega
  · rw [if_neg h]
    exact h

theorem isJsWhitespace_toLower (c : Char) :
    isJsWhitespace (Char.toLower c) = isJsWhitespace c := by
  by_cases h : 65 ≤ c.toNat ∧ c.toNat ≤ 90
  · have h1 : isJsWhitespace (Char.toLower c) = false := by
      simp only [isJsWhitespace, toNat_toLower, if_pos h]
      simp only [Bool.or_eq_false_iff, beq_eq_false_iff_ne, ne_eq,
        Bool.and_eq_false_iff, decide_eq_false_iff_not, not_le]
      omega
    have h2 : isJsWhitespace c = false := by
      simp only [isJsWhitespace]
      simp only [Bool.or_eq_false_iff, beq_eq_false_iff_ne, ne_eq,
        Bool.and_eq_false_iff, decide_eq_false_iff_not, not_le]
      omega
    rw [h1, h2]
  · rw [toLower_eq_self h]

theorem isUnicodeSpace_toLower (c : Char) :
    isUnicodeSpace (Char.toLower c) = isUnicodeSpace c := by
  by_cases h : 65 ≤ c.toNat ∧ c.toNat ≤ 90
  · have h1 : isUnicodeSpace (Char.toLower c) = false := by
      simp only [isUnicodeSpace, toNat_toLower, if_pos h]
      simp only [Bool.or_eq_false_iff, beq_eq_false_iff_ne, ne_eq,
        Bool.and_eq_false_iff, decide_eq_false_iff_not, not_le]
      omega
    have h2 : isUnicodeSpace c = false := by
      simp only [isUnicodeSpace]
      simp only [Bool.or_eq_false_iff, beq_eq_false_iff_ne, ne_eq,
        Bool.and_eq_false_iff, decide_eq_false_iff_not, not_le]
      omega
    rw [h1, h2]
  · rw [toLower_eq_self h]

/-- The adjacency relation of a whitespace-collapsed character list: no two
neighbouring `\s` characters. -/
def NoWsPair (a b : Char) : Prop :=
  ¬(isJsWhitespace a = true ∧ isJsWhitespace b = true)

theorem mem_collapseWs : ∀ (l : List Char), ∀ c ∈ collapseWs l, c = ' ' ∨ c ∈ l := by
  intro l
  induction l with
  | nil => simp [collapseWs]
  | cons a t ih =>
    cases t with
    | nil =>
      intro c hc
      rw [collapseWs] at hc
      rcases List.mem_singleton.1 hc with rfl
      by_cases hw : isJsWhitespace a
      · rw [if_pos hw]
        exact Or.inl rfl
      · rw [if_neg hw]
        exact Or.inr (List.mem_cons_self _ _)
    | cons b t2 =>
      intro c hc
      rw [collapseWs] at hc
      by_cases hw : isJsWhitespace a && isJsWhitespace b
      · rw [if_pos hw] at hc
        rcases ih c hc with h | h
        · exact Or.inl h
        · exact Or.inr (List.mem_cons_of_mem _ h)
      · rw [if_neg hw] at hc
        rcases List.mem_cons.1 hc with rfl | h
        · by_cases hwa : isJsWhitespace a
          · rw [if_pos hwa]
            exact Or.inl rfl
          · rw [if_neg hwa]
            exact Or.inr (List.mem_cons_self _ _)
        · rcases ih c h with h2 | h2
          · exact Or.inl h2
          · exact Or.inr (List.mem_cons_of_mem _ h2)

theorem collapseWs_ws_eq_space :
    ∀ (l : List Char), ∀ c ∈ collapseWs l, isJsWhitespace c = true → c = ' ' := by
  intro l
  induction l with
  | nil => simp [collapseWs]
  | cons a t ih =>
    cases t with
    | nil =>
      intro c hc hw
      rw [collapseWs] at hc
      rcases List.mem_singleton.1 hc with rfl
      by_cases hwa : isJsWhitespace a
      · rw [if_pos hwa]
      · rw [if_neg hwa]
        rw [if_neg hwa] at hw
        exact absurd hw (by simp [hwa])
    | cons b t2 =>
      intro c hc hw
      rw [collapseWs] at hc
      by_cases hab : isJsWhitespace a && isJsWhitespace b
      · rw [if_pos hab] at hc
        exact ih c hc hw
      · rw [if_neg hab] at hc
        rcases List.mem_cons.1 hc with rfl | h
        · by_cases hwa : isJsWhitespace a
          · rw [if_pos hwa]
          · rw [if_neg hwa]
            rw [if_neg hwa] at hw
            exact absurd hw (by simp [hwa])
        · exact ih c h hw

theorem collapseWs_head?_of_not_ws (b : Char) (t : List Char)
    (h : isJsWhitespace b = false) : (collapseWs (b :: t)).head? = some b := by
  cases t with
  | nil => simp [collapseWs, h]
  | cons c t2 => simp [collapseWs, h]

theorem collapseWs_chain' :
    ∀ (l : List Char), List.Chain' NoWsPair (collapseWs l) := by
  intro l
  induction l with
  | nil => simp [collapseWs]
  | cons a t ih =>
    cases t with
    | nil => simp [collapseWs]
    | cons b t2 =>
      rw [collapseWs]
      by_cases hab : isJsWhitespace a && isJsWhitespace b
      · rw [if_pos hab]
        exact ih
      · rw [if_neg hab]
        rw [List.chain'_cons']
        refine ⟨?_, ih⟩
        intro y hy
        by_cases hwa : isJsWhitespace a
        · have hwb : isJsWhitespace b = false := by
            cases hb : isJsWhitespace b
            · rfl
            · exact absurd (by rw [hwa, hb]; rfl) hab
          rw [collapseWs_head?_of_not_ws b t2 hwb] at hy
          have hyb : b = y := by simpa using hy
          subst hyb
          intro hcon
          rw [hwb] at hcon
          exact Bool.false_ne_true hcon.2
        · rw [if_neg hwa]
          intro hcon
          exact hwa hcon.1

theorem collapseWs_eq_self :
    ∀ (l : List Char), (∀ c ∈ l, isJsWhitespace c = true → c = ' ') →
      List.Chain' NoWsPair l → collapseWs l = l := by
  intro l
  induction l with
  | nil => intro _ _; rfl
  | cons a t ih =>
    cases t with
    | nil =>
      intro hws _
      rw [collapseWs]
      by_cases hwa : isJsWhitespace a
      · rw [if_pos hwa, hws a (List.mem_cons_self _ _) hwa]
      · rw [if_neg hwa]
    | cons b t2 =>
      intro hws hch
      rw [collapseWs]
      have hnab : ¬(isJsWhitespace a && isJsWhitespace b) := by
        have hR := (List.chain'_cons.1 hch).1
        intro hcon
        rw [Bool.and_eq_true] at hcon
        exact hR hcon
      rw [if_neg hnab]
      have htail : collapseWs (b :: t2) = b :: t2 :=
        ih (fun c hc => hws c (List.mem_cons_of_mem _ hc)) (List.chain'_cons.1 hch).2
      rw [htail]
      by_cases hwa : isJsWhitespace a
      · rw [if_pos hwa, hws a (List.mem_cons_self _ _) hwa]
      · rw [if_neg hwa]

theorem mem_dropWhile {p : Char → Bool} :
    ∀ {l : List Char}, ∀ c ∈ l.dropWhile p, c ∈ l := by
  intro l
  induction l with
  | nil => simp
  | cons a t ih =>
    intro c hc
    rw [List.dropWhile_cons] at hc
    by_cases hp : p a
    · rw [if_pos hp] at hc
      exact List.mem_cons_of_mem _ (ih c hc)
    · rw [if_neg hp] at hc
      exact hc

theorem chain'_dropWhile {R : Char → Char → Prop} {p : Char → Bool} :
    ∀ {l : List Char}, List.Chain' R l → List.Chain' R (l.dropWhile p) := by
  intro l
  induction l with
  | nil => simp
  | cons a t ih =>
    intro h
    rw [List.dropWhile_cons]
    by_cases hp : p a
    · rw [if_pos hp]
      exact ih h.tail
    · rw [if_neg hp]
      exact h

theorem head?_dropWhile {p : Char → Bool} :
    ∀ {l : List Char} {c : Char}, (l.dropWhile p).head? = some c → p c = false := by
  intro l
  induction l with
  | nil => simp
  | cons a t ih =>
    intro c hc
    rw [List.dropWhile_cons] at hc
    by_cases hp : p a
    · rw [if_pos hp] at hc
      exact ih hc
    · rw [if_neg hp] at hc
      rcases Option.some_inj.1 hc with rfl
      exact Bool.eq_false_iff.2 hp

theorem getLast?_dropWhile {p : Char → Bool} :
    ∀ {l : List Char}, l.dropWhile p ≠ [] →
      (l.dropWhile p).getLast? = l.getLast? := by
  intro l
  induction l with
  | nil => simp
  | cons a t ih =>
    intro hne
    rw [List.dropWhile_cons]
    rw [List.dropWhile_cons] at hne
    by_cases hp : p a
    · rw [if_pos hp]
      rw [if_pos hp] at hne
      rw [ih hne]
      have ht : t ≠ [] := by
        intro hcon
        rw [hcon] at hne
        exact hne rfl
      rcases List.exists_cons_of_ne_nil ht with ⟨b, t2, rfl⟩
      rw [List.getLast?_cons_cons]
    · rw [if_neg hp]

theorem dropWhile_eq_self_of_head {p : Char → Bool} {l : List Char}
    (h : ∀ c, l.head? = some c → p c = false) : l.dropWhile p = l := by
  cases l with
  | nil => rfl
  | cons a t =>
    rw [List.dropWhile_cons, if_neg]
    rw [h a rfl]
    exact Bool.false_ne_true

/-- A character list on which every stage of `cleanChars` is the identity:
no exotic Unicode space, every `\s` character is a plain space, no two
adjacent `\s` characters, no `\s` character at either end, and no basic
latin capital. -/
def Normalized (l : List Char) : Prop :=
  (∀ c ∈ l, isUnicodeSpace c = false ∧ (isJsWhitespace c = true → c = ' ') ∧
    Char.toLower c = c) ∧
  List.Chain' NoWsPair l ∧
  (∀ c, l.head? = some c → isJsWhitespace c = false) ∧
  (∀ c, l.getLast? = some c → isJsWhitespace c = false)

theorem cleanChars_normalized (cs : List Char) : Normalized (cleanChars cs) := by
  set X1 := replaceUnicodeSpaces cs with hX1
  have hX1mem : ∀ c ∈ X1, isUnicodeSpace c = false := by
    intro c hc
    rw [hX1, replaceUnicodeSpaces] at hc
    rcases List.mem_map.1 hc with ⟨d, _, rfl⟩
    by_cases hd : isUnicodeSpace d
    · rw [if_pos hd]
      decide
    · rw [if_neg hd]
      exact Bool.eq_false_iff.2 hd
  set X2 := collapseWs X1 with hX2
  have hX2mem : ∀ c ∈ X2, isUnicodeSpace c = false := by
    intro c hc
    rcases mem_collapseWs X1 c hc with rfl | h
    · decide
    · exact hX1mem c h
  have hX2ws : ∀ c ∈ X2, isJsWhitespace c = true → c = ' ' :=
    collapseWs_ws_eq_space X1
  have hX2ch : List.Chain' NoWsPair X2 := collapseWs_chain' X1
  set X3 := jsTrimChars X2 with hX3
  have hX3sub : ∀ c ∈ X3, c ∈ X2 := by
    intro c hc
    rw [hX3, jsTrimChars] at hc
    rw [List.mem_reverse] at hc
    have := mem_dropWhile c hc
    rw [List.mem_reverse] at this
    exact mem_dropWhile c this
  have hX3ch : List.Chain' NoWsPair X3 := by
    rw [hX3, jsTrimChars]
    rw [List.chain'_reverse]
    have h1 : List.Chain' (flip NoWsPair) (X2.dropWhile isJsWhitespace) := by
      have : List.Chain' (flip NoWsPair) X2 := by
        refine hX2ch.imp ?_
        intro a b h
        intro hcon
        exact h ⟨hcon.2, hcon.1⟩
      exact chain'_dropWhile this
    have h2 : List.Chain' NoWsPair (X2.dropWhile isJsWhitespace).reverse := by
      rw [List.chain'_reverse]
      exact h1
    have h3 : List.Chain' NoWsPair
        ((X2.dropWhile isJsWhitespace).reverse.dropWhile isJsWhitespace) :=
      chain'_dropWhile h2
    refine h3.imp ?_
    intro a b h hcon
    exact h ⟨hcon.2, hcon.1⟩
  have hX3head : ∀ c, X3.head? = some c → isJsWhitespace c = false := by
    intro c hc
    rw [hX3, jsTrimChars, List.head?_reverse] at hc
    have hne : (X2.dropWhile isJsWhitespace).reverse.dropWhile isJsWhitespace ≠ [] := by
      intro hcon
      rw [hcon] at hc
      simp at hc
    rw [getLast?_dropWhile hne, List.getLast?_reverse] at hc
    exact head?_dropWhile hc
  have hX3last : ∀ c, X3.getLast? = some c → isJsWhitespace c = false := by
    intro c hc
    rw [hX3, jsTrimChars, List.getLast?_reverse] at hc
    exact head?_dropWhile hc
  have hL : cleanChars cs = X3.map Char.toLower := by
    rw [cleanChars, ← hX1, ← hX2, ← hX3]
  rw [hL]
  refine ⟨?_, ?_, ?_, ?_⟩
  · intro c hc
    rcases List.mem_map.1 hc with ⟨d, hd, rfl⟩
    refine ⟨?_, ?_, toLower_toLower d⟩
    · rw [isUnicodeSpace_toLower]
      exact hX2mem d (hX3sub d hd)
    · intro hw
      rw [isJsWhitespace_toLower] at hw
      rw [hX2ws d (hX3sub d hd) hw]
      decide
  · rw [List.chain'_map]
    refine hX3ch.imp ?_
    intro a b h hcon
    rw [isJsWhitespace_toLower, isJsWhitespace_toLower] at hcon
    exact h hcon
  · intro c hc
    rw [List.head?_map] at hc
    rcases Option.map_eq_some'.1 hc with ⟨d, hd, rfl⟩
    rw [isJsWhitespace_toLower]
    exact hX3head d hd
  · intro c hc
    rw [List.getLast?_map] at hc
    rcases Option.map_eq_some'.1 hc with ⟨d, hd, rfl⟩
    rw [isJsWhitespace_toLower]
    exact hX3last d hd

theorem cleanChars_eq_self {l : List Char} (h : Normalized l) : cleanChars l = l := by
  obtain ⟨hmem, hch, hhead, hlast⟩ := h
  have h1 : replaceUnicodeSpaces l = l := by
    rw [replaceUnicodeSpaces]
    apply List.map_congr_left ?_ |>.trans (List.map_id l)
    intro c hc
    have hns : ¬(isUnicodeSpace c = true) := by
      rw [(hmem c hc).1]
      exact Bool.false_ne_true
    rw [if_neg hns]
    rfl
  have h2 : collapseWs l = l :=
    collapseWs_eq_self l (fun c hc => (hmem c hc).2.1) hch
  have h3 : jsTrimChars l = l := by
    rw [jsTrimChars]
    rw [dropWhile_eq_self_of_head hhead]
    rw [dropWhile_eq_self_of_head (by
      intro c hc
      rw [List.head?_reverse] at hc
      exact hlast c hc)]
    exact List.reverse_reverse l
  rw [cleanChars, h1, h2, h3]
  apply List.map_congr_left ?_ |>.trans (List.map_id l)
  intro c hc
  exact (hmem c hc).2.2

/-- C8: text normalization is total — defined for strings, numbers and
missing values alike, with a missing value mapping to the empty string —
and idempotent, `cleanText (cleanText x) = cleanText x` for every input;
and it is case- and whitespace-insensitive:
`" A" + nbsp + "B "` and `"a b"` normalize to the same string. -/
theorem c8_cleantext_total_idempotent :
    cleanText none = "" ∧
    (∀ v : Option Value, cleanText (some (.str (cleanText v))) = cleanText v) ∧
    cleanText (some (.str " A\u00A0B ")) = cleanText (some (.str "a b")) := by
  refine ⟨rfl, ?_, by decide⟩
  intro v
  cases v with
  | none =>
    decide
  | some v =>
    show (⟨cleanChars (valueToString (.str (cleanText (some v)))).data⟩ : String) =
      cleanText (some v)
    have : (valueToString (.str (cleanText (some v)))).data =
        cleanChars (valueToString v).data := rfl
    rw [this, cleanChars_eq_self (cleanChars_normalized _)]
    rfl

/-! ## Association-list update lemmas for `normalizeKeys` -/

theorem lookupKey_append {α : Type} (l1 l2 : List (String × α)) (k : String) :
    lookupKey (l1 ++ l2) k =
      match lookupKey l1 k with
      | some v => some v
      | none => lookupKey l2 k := by
  induction l1 with
  | nil => rfl
  | cons e rest ih =>
    rw [List.cons_append, lookupKey, lookupKey]
    by_cases he : e.1 = k
    · rw [if_pos he, if_pos he]
    · rw [if_neg he, if_neg he, ih]

theorem lookupKey_map_replace_self {α : Type} {k : String} (v : α) :
    ∀ (l : List (String × α)) (old : α), lookupKey l k = some old →
      lookupKey (l.map (fun p => if p.1 == k then (k, v) else p)) k = some v := by
  intro l
  induction l with
  | nil => intro old h; simp [lookupKey] at h
  | cons e rest ih =>
    intro old h
    rw [lookupKey] at h
    rw [List.map_cons]
    by_cases he : e.1 = k
    · rw [if_pos (by simp [he] : (e.1 == k) = true)]
      rw [lookupKey, if_pos rfl]
    · rw [if_neg (by simp [he] : ¬((e.1 == k) = true))]
      rw [lookupKey, if_neg he]
      rw [if_neg he] at h
      exact ih old h

theorem lookupKey_map_replace_ne {α : Type} {k k2 : String} (hne : k2 ≠ k) (v : α) :
    ∀ (l : List (String × α)),
      lookupKey (l.map (fun p => if p.1 == k then (k, v) else p)) k2 =
        lookupKey l k2 := by
  intro l
  induction l with
  | nil => rfl
  | cons e rest ih =>
    rw [List.map_cons]
    by_cases he : e.1 = k
    · rw [if_pos (by simp [he] : (e.1 == k) = true)]
      rw [lookupKey, if_neg (fun hc => hne hc.symm), lookupKey,
        if_neg (by rw [he]; exact fun hc => hne hc.symm)]
      exact ih
    · rw [if_neg (by simp [he] : ¬((e.1 == k) = true))]
      rw [lookupKey, lookupKey]
      by_cases he2 : e.1 = k2
      · rw [if_pos he2, if_pos he2]
      · rw [if_neg he2, if_neg he2]
        exact ih

theorem lookupKey_setValue_self {α : Type} {l : List (String × α)} {k : String}
    {old : α} (h : lookupKey l k = some old) (v : α) :
    lookupKey (setValue l k v) k = some v := by
  have hcont : l.any (fun p => p.1 == k) = true :=
    List.any_eq_true.2 ⟨(k, old), mem_of_lookupKey_eq_some h, by simp⟩
  rw [setValue, if_pos hcont]
  exact lookupKey_map_replace_self v l old h

theorem lookupKey_setValue_ne {α : Type} (l : List (String × α)) {k k2 : String}
    (hne : k2 ≠ k) (v : α) :
    lookupKey (setValue l k v) k2 = lookupKey l k2 := by
  rw [setValue]
  by_cases hcont : l.any (fun p => p.1 == k) = true
  · rw [if_pos hcont]
    exact lookupKey_map_replace_ne hne v l
  · rw [if_neg hcont, lookupKey_append]
    cases h2 : lookupKey l k2 with
    | some w => rfl
    | none =>
      rw [lookupKey, if_neg (fun hc => hne hc.symm)]
      rfl

theorem lookupKey_nkStep_ne (acc : Row) (e : String × Value) {c : String}
    (h : resolveAlias e.1 ≠ c) :
    lookupKey (nkStep acc e) c = lookupKey acc c := by
  rw [nkStep]
  by_cases hck : resolveAlias e.1 = ""
  · rw [if_pos hck]
  · rw [if_neg hck]
    cases hl : lookupKey acc (resolveAlias e.1) with
    | none =>
      dsimp only
      rw [lookupKey_append]
      cases h2 : lookupKey acc c with
      | some w => rfl
      | none =>
        rw [lookupKey, if_neg h]
        rfl
    | some old =>
      dsimp only
      by_cases hcond : old = .str "" ∧ e.2 ≠ .str ""
      · rw [if_pos hcond]
        exact lookupKey_setValue_ne acc (fun hc => h hc.symm) e.2
      · rw [if_neg hcond]

/-- The collision policy described by the spec, folded over the values of
the source columns resolving to one canonical name: keep the first value,
overwriting only an empty-string value with a non-empty one. -/
def firstKeep (acc : Option Value) (v : Value) : Option Value :=
  match acc with
  | none => some v
  | some old => if old = .str "" ∧ v ≠ .str "" then some v else some old

theorem normalizeKeys_lookup_aux (c : String) (hc : c ≠ "") :
    ∀ (l : List (String × Value)) (acc : Row),
      lookupKey (List.foldl nkStep acc l) c =
        ((l.filter (fun e => resolveAlias e.1 == c)).map (fun e => e.2)).foldl
          firstKeep (lookupKey acc c) := by
  intro l
  induction l with
  | nil => intro acc; rfl
  | cons e rest ih =>
    intro acc
    rw [List.foldl_cons, ih]
    by_cases he : resolveAlias e.1 = c
    · rw [List.filter_cons_of_pos (by simp [he]), List.map_cons]
      rw [List.foldl_cons]
      have hstep : lookupKey (nkStep acc e) c = firstKeep (lookupKey acc c) e.2 := by
        rw [nkStep, he, if_neg hc]
        cases hl : lookupKey acc c with
        | none =>
          dsimp only
          rw [lookupKey_append, hl, firstKeep]
          rw [lookupKey, if_pos rfl]
        | some old =>
          dsimp only
          rw [firstKeep]
          by_cases hcond : old = .str "" ∧ e.2 ≠ .str ""
          · rw [if_pos hcond, if_pos hcond]
            exact lookupKey_setValue_self hl e.2
          · rw [if_neg hcond, if_neg hcond, hl]
      rw [hstep]
    · rw [List.filter_cons_of_neg (by simp [he])]
      rw [lookupKey_nkStep_ne acc e he]

/-- C6: key resolution rewrites a trimmed key that exactly matches an alias
entry to its canonical name, else uses the canonical name of the first
case-insensitive alias match, else keeps the (trimmed) key unchanged; and
when several source keys of one row resolve to one canonical name, the first
value is kept, a stored value being overwritten only when it is the empty
string and the new value is not. -/
theorem c6_alias_resolution :
    (∀ k c, lookupKey COLUMN_ALIASES (jsTrimStr k) = some c →
      resolveAlias k = c) ∧
    (∀ k p, lookupKey COLUMN_ALIASES (jsTrimStr k) = none →
      COLUMN_ALIASES.find? (fun q => lowerStr q.1 == lowerStr (jsTrimStr k)) =
        some p →
      resolveAlias k = p.2) ∧
    (∀ k, lookupKey COLUMN_ALIASES (jsTrimStr k) = none →
      COLUMN_ALIASES.find? (fun q => lowerStr q.1 == lowerStr (jsTrimStr k)) =
        none →
      resolveAlias k = jsTrimStr k) ∧
    (∀ (row : Row) (c : String), c ≠ "" →
      lookupKey (normalizeKeys row) c =
        ((row.filter (fun e => resolveAlias e.1 == c)).map (fun e => e.2)).foldl
          firstKeep none) := by
  refine ⟨?_, ?_, ?_, ?_⟩
  · intro k c h
    rw [resolveAlias, h]
  · intro k p h1 h2
    rw [resolveAlias, h1, h2]
  · intro k h1 h2
    rw [resolveAlias, h1, h2]
  · intro row c hc
    rw [normalizeKeys, normalizeKeys_lookup_aux c hc row []]
    rfl

/-- Closed witness for the alias-resolution claim: a case-insensitive match,
a pass-through key, and a same-canonical-name collision where the first
non-empty value wins. -/
theorem c6_alias_resolution_witness :
    resolveAlias " email " = "Username (Email)" ∧
    resolveAlias "District" = "District" ∧
    lookupKey (normalizeKeys [("Email", .str ""), ("Username", .str "x")])
      "Username (Email)" = some (.str "x") ∧
    lookupKey (normalizeKeys [("Email", .str "a@x.com"), ("Username", .str "x")])
      "Username (Email)" = some (.str "a@x.com") := by
  refine ⟨?_, ?_, ?_, ?_⟩
  · exact c6_alias_resolution.2.1 " email " ("Email", "Username (Email)")
      (by decide) (by decide)
  · have h := c6_alias_resolution.2.2.1 "District" (by decide) (by decide)
    rw [h]
    decide
  · rw [c6_alias_resolution.2.2.2 [("Email", .str ""), ("Username", .str "x")]
      "Username (Email)" (by decide)]
    decide
  · rw [c6_alias_resolution.2.2.2
      [("Email", .str "a@x.com"), ("Username", .str "x")]
      "Username (Email)" (by decide)]
    decide

/-! ## Truthiness and stringification -/

theorem toDigitsCore_length_le (b : Nat) :
    ∀ (f n : Nat) (ds : List Char),
      ds.length ≤ (Nat.toDigitsCore b f n ds).length := by
  intro f
  induction f with
  | zero => intro n ds; exact le_refl _
  | succ f ih =>
    intro n ds
    rw [Nat.toDigitsCore]
    by_cases h : n / b = 0
    · rw [if_pos h]
      exact Nat.le_succ _
    · rw [if_neg h]
      calc ds.length ≤ (Nat.digitChar (n % b) :: ds).length := by simp
        _ ≤ _ := ih (n / b) _

theorem toDigits_ne_nil (b n : Nat) : Nat.toDigits b n ≠ [] := by
  rw [Nat.toDigits, Nat.toDigitsCore]
  by_cases h : n / b = 0
  · rw [if_pos h]
    exact List.cons_ne_nil _ _
  · rw [if_neg h]
    intro hcon
    have := toDigitsCore_length_le b n (n / b) [Nat.digitChar (n % b)]
    rw [hcon] at this
    simp at this

theorem natRepr_ne_empty (n : Nat) : Nat.repr n ≠ "" := by
  rw [Nat.repr]
  intro hcon
  apply toDigits_ne_nil 10 n
  have : (Nat.toDigits 10 n).asString.data = ("" : String).data := by rw [hcon]
  exact this

theorem toString_int_ne_empty (n : Int) : toString n ≠ "" := by
  cases n with
  | ofNat m => exact natRepr_ne_empty m
  | negSucc m =>
    show "-" ++ toString (m + 1) ≠ ""
    intro hcon
    have : ("-" ++ toString (m + 1)).data = ("" : String).data := by rw [hcon]
    rw [String.data_append] at this
    simp at this

theorem valueToString_ne_empty_of_truthy {v : Value} (h : truthy v = true) :
    valueToString v ≠ "" := by
  cases v with
  | str s =>
    rw [truthy] at h
    exact of_decide_eq_true h
  | num n => exact toString_int_ne_empty n

theorem mergeField_truthy_or_empty (mrow : Option Row) (lrow : Row) (f : String) :
    truthy (mergeField mrow lrow f) = true ∨ mergeField mrow lrow f = .str "" := by
  rw [mergeField]
  by_cases h1 : truthyO (mrow.bind (fun m => lookupKey m f))
  · rw [if_pos h1]
    left
    cases hm : mrow.bind (fun m => lookupKey m f) with
    | none => rw [hm] at h1; exact absurd h1 (by decide)
    | some v => rw [hm] at h1; exact h1
  · rw [if_neg h1]
    by_cases h2 : truthyO (lookupKey lrow f)
    · rw [if_pos h2]
      left
      cases hl : lookupKey lrow f with
      | none => rw [hl] at h2; exact absurd h2 (by decide)
      | some v => rw [hl] at h2; exact h2
    · rw [if_neg h2]
      right
      rfl

theorem valueToString_mergeField_empty_iff (mrow : Option Row) (lrow : Row)
    (f : String) :
    valueToString (mergeField mrow lrow f) = "" ↔
      truthy (mergeField mrow lrow f) = false := by
  constructor
  · intro h
    cases hb : truthy (mergeField mrow lrow f)
    · rfl
    · exact absurd h (valueToString_ne_empty_of_truthy hb)
  · intro h
    rcases mergeField_truthy_or_empty mrow lrow f with h2 | h2
    · rw [h2] at h
      exact absurd h (by decide)
    · rw [h2]
      rfl

/-! ## Membership in the final report -/

theorem mem_foldl_buildFinal (mm : List (String × Row)) :
    ∀ (entries : List (String × LmsEntry)) (acc : List FinalReportRow)
      (r : FinalReportRow),
      r ∈ entries.foldl (buildFinal mm) acc ↔
        r ∈ acc ∨ ∃ kv ∈ entries, emitCheck mm kv = true ∧ r = finalRowOf mm kv := by
  intro entries
  induction entries with
  | nil => simp
  | cons kv rest ih =>
    intro acc r
    rw [List.foldl_cons, ih]
    constructor
    · rintro (hacc | ⟨kv2, hkv2, hemit, rfl⟩)
      · rw [buildFinal] at hacc
        by_cases he : emitCheck mm kv
        · rw [if_pos he] at hacc
          rcases List.mem_append.1 hacc with h | h
          · exact Or.inl h
          · rcases List.mem_singleton.1 h with rfl
            exact Or.inr ⟨kv, List.mem_cons_self _ _, he, rfl⟩
        · rw [if_neg he] at hacc
          exact Or.inl hacc
      · exact Or.inr ⟨kv2, List.mem_cons_of_mem _ hkv2, hemit, rfl⟩
    · rintro (hacc | ⟨kv2, hkv2, hemit, rfl⟩)
      · left
        rw [buildFinal]
        by_cases he : emitCheck mm kv
        · rw [if_pos he]
          exact List.mem_append_left _ hacc
        · rw [if_neg he]
          exact hacc
      · rcases List.mem_cons.1 hkv2 with rfl | h
        · left
          rw [buildFinal, if_pos hemit]
          exact List.mem_append_right _ (List.mem_singleton.2 rfl)
        · exact Or.inr ⟨kv2, h, hemit, rfl⟩

theorem mem_processData_iff (lms1 lms2 master : List Row) (r : FinalReportRow) :
    r ∈ processData lms1 lms2 master ↔
      ∃ kv ∈ lmsMap (lessonColumns (lms1 ++ lms2)) (lms1 ++ lms2),
        emitCheck (masterMap master) kv = true ∧
        r = finalRowOf (masterMap master) kv := by
  rw [processData]
  rw [mem_foldl_buildFinal]
  simp

/-- The field-precedence rule as worded by the spec: the master record's
value when a master record with the key exists and its value is
truthy/non-empty, else the winning LMS row's value when truthy/non-empty,
else the empty string. -/
def specMergedField (mrow : Option Row) (lrow : Row) (f : String) : String :=
  match mrow with
  | some m =>
    if truthyO (lookupKey m f) then valueToString ((lookupKey m f).getD (.str ""))
    else if truthyO (lookupKey lrow f) then
      valueToString ((lookupKey lrow f).getD (.str ""))
    else ""
  | none =>
    if truthyO (lookupKey lrow f) then
      valueToString ((lookupKey lrow f).getD (.str ""))
    else ""

theorem mergeField_eq_spec (mrow : Option Row) (lrow : Row) (f : String) :
    valueToString (mergeField mrow lrow f) = specMergedField mrow lrow f := by
  cases mrow with
  | none =>
    simp only [mergeField, specMergedField, Option.bind]
    rw [if_neg (by decide : ¬(truthyO none = true))]
    by_cases h2 : truthyO (lookupKey lrow f)
    · rw [if_pos h2, if_pos h2]
    · rw [if_neg h2, if_neg h2]
      rfl
  | some m =>
    simp only [mergeField, specMergedField, Option.bind]
    by_cases h1 : truthyO (lookupKey m f)
    · rw [if_pos h1, if_pos h1]
    · rw [if_neg h1, if_neg h1]
      by_cases h2 : truthyO (lookupKey lrow f)
      · rw [if_pos h2, if_pos h2]
      · rw [if_neg h2, if_neg h2]
        rfl

/-- C3: every emitted report row comes from a deduplication entry; each of
its fields except the completion rate obeys the precedence rule — master
value when a master record exists and its value is truthy/non-empty, else
the LMS value, else the empty string — and its Completion Rate is exactly
the entry's LMS-side deduplication score, never a master-carried value. -/
theorem c3_merge_precedence (lms1 lms2 master : List Row) (r : FinalReportRow)
    (hr : r ∈ processData lms1 lms2 master) :
    ∃ kv ∈ lmsMap (lessonColumns (lms1 ++ lms2)) (lms1 ++ lms2),
      r.completionRate = kv.2.rate ∧
      r.district = specMergedField (lookupKey (masterMap master) kv.1) kv.2.row
        "District" ∧
      r.city = specMergedField (lookupKey (masterMap master) kv.1) kv.2.row
        "City" ∧
      r.supervisorName = specMergedField (lookupKey (masterMap master) kv.1)
        kv.2.row "Supervisor Name" ∧
      r.pharmacyNo = specMergedField (lookupKey (masterMap master) kv.1) kv.2.row
        "Pharmacy No." ∧
      r.employeeId = specMergedField (lookupKey (masterMap master) kv.1) kv.2.row
        "User/Employee ID" ∧
      r.email = specMergedField (lookupKey (masterMap master) kv.1) kv.2.row
        "Username (Email)" ∧
      r.displayName = specMergedField (lookupKey (masterMap master) kv.1) kv.2.row
        "Display Name (Pharmacist name)" ∧
      r.phone = specMergedField (lookupKey (masterMap master) kv.1) kv.2.row
        "Phone number (Whatsapp)" ∧
      r.scfhs = specMergedField (lookupKey (masterMap master) kv.1) kv.2.row
        "SCFHS" := by
  rcases (mem_processData_iff lms1 lms2 master r).1 hr with ⟨kv, hkv, -, rfl⟩
  refine ⟨kv, hkv, rfl, ?_⟩
  rw [finalRowOf]
  refine ⟨?_, ?_, ?_, ?_, ?_, ?_, ?_, ?_, ?_⟩ <;> exact mergeField_eq_spec _ _ _

/-- C7: a merged record enters the final report iff at least one of the
merged User/Employee ID, Username (Email) and Display Name strings is
non-empty; a record with all three empty is never pushed, whatever its other
fields hold. -/
theorem c7_suppression :
    (∀ (lms1 lms2 master : List Row) (r : FinalReportRow),
      r ∈ processData lms1 lms2 master →
      r.employeeId ≠ "" ∨ r.email ≠ "" ∨ r.displayName ≠ "") ∧
    (∀ (mm : List (String × Row)) (acc : List FinalReportRow)
      (kv : String × LmsEntry),
      buildFinal mm acc kv = acc ++ [finalRowOf mm kv] ↔
        ((finalRowOf mm kv).employeeId ≠ "" ∨ (finalRowOf mm kv).email ≠ "" ∨
          (finalRowOf mm kv).displayName ≠ "")) ∧
    (∀ (mm : List (String × Row)) (acc : List FinalReportRow)
      (kv : String × LmsEntry),
      buildFinal mm acc kv = acc ↔
        ((finalRowOf mm kv).employeeId = "" ∧ (finalRowOf mm kv).email = "" ∧
          (finalRowOf mm kv).displayName = "")) := by
  have hbridge : ∀ (mm : List (String × Row)) (kv : String × LmsEntry),
      emitCheck mm kv = true ↔
        ((finalRowOf mm kv).employeeId ≠ "" ∨ (finalRowOf mm kv).email ≠ "" ∨
          (finalRowOf mm kv).displayName ≠ "") := by
    intro mm kv
    rw [emitCheck]
    have hf : ∀ f : String,
        truthy (mergeField (lookupKey mm kv.1) kv.2.row f) = true ↔
          valueToString (mergeField (lookupKey mm kv.1) kv.2.row f) ≠ "" := by
      intro f
      constructor
      · exact valueToString_ne_empty_of_truthy
      · intro h
        cases hb : truthy (mergeField (lookupKey mm kv.1) kv.2.row f)
        · exact absurd ((valueToString_mergeField_empty_iff _ _ _).2 hb) h
        · rfl
    rw [Bool.or_eq_true, Bool.or_eq_true]
    rw [hf "User/Employee ID", hf "Username (Email)",
      hf "Display Name (Pharmacist name)"]
    rw [or_assoc]
    exact Iff.rfl
  have hne : ∀ (acc : List FinalReportRow) (x : FinalReportRow),
      acc ++ [x] ≠ acc := by
    intro acc x hcon
    have := congrArg List.length hcon
    rw [List.length_append] at this
    simp at this
  refine ⟨?_, ?_, ?_⟩
  · intro lms1 lms2 master r hr
    rcases (mem_processData_iff lms1 lms2 master r).1 hr with ⟨kv, -, hemit, rfl⟩
    exact (hbridge (masterMap master) kv).1 hemit
  · intro mm acc kv
    rw [buildFinal]
    constructor
    · intro h
      by_cases he : emitCheck mm kv
      · exact (hbridge mm kv).1 he
      · rw [if_neg he] at h
        exact absurd h.symm (hne acc _)
    · intro h
      rw [if_pos ((hbridge mm kv).2 h)]
  · intro mm acc kv
    rw [buildFinal]
    constructor
    · intro h
      by_cases he : emitCheck mm kv
      · rw [if_pos he] at h
        exact absurd h (hne acc _)
      · rcases not_or.1 ((hbridge mm kv).not.1 (by simp [he])) with ⟨h1, hrest⟩
        rcases not_or.1 hrest with ⟨h2, h3⟩
        exact ⟨not_not.1 h1, not_not.1 h2, not_not.1 h3⟩
    · intro h
      rw [if_neg]
      intro he
      rcases (hbridge mm kv).1 he with hcon | hcon | hcon
      · exact hcon h.1
      · exact hcon h.2.1
      · exact hcon h.2.2

/-- A minimal LMS row used by the merge-precedence witness. -/
def lmsRowW : Row := [("Username (Email)", .str "w@x.com")]

/-- Closed witness for the merge-precedence claim: the single report row of
a one-row run comes from its deduplication entry and carries that entry's
score as its Completion Rate. -/
theorem c3_merge_precedence_witness :
    ∃ kv ∈ lmsMap (lessonColumns ([lmsRowW] ++ ([] : List Row)))
        ([lmsRowW] ++ ([] : List Row)),
      (finalRowOf (masterMap []) ("w@x.com",
        ⟨lmsRowW, calculateRate (lessonColumns ([lmsRowW] ++ ([] : List Row)))
          lmsRowW⟩)).completionRate = kv.2.rate ∧
      (finalRowOf (masterMap []) ("w@x.com",
        ⟨lmsRowW, calculateRate (lessonColumns ([lmsRowW] ++ ([] : List Row)))
          lmsRowW⟩)).district =
        specMergedField (lookupKey (masterMap []) kv.1) kv.2.row "District" := by
  have hr : finalRowOf (masterMap []) ("w@x.com",
      ⟨lmsRowW, calculateRate (lessonColumns ([lmsRowW] ++ ([] : List Row)))
        lmsRowW⟩) ∈ processData [lmsRowW] [] [] := by
    rw [mem_processData_iff]
    refine ⟨("w@x.com",
      ⟨lmsRowW, calculateRate (lessonColumns ([lmsRowW] ++ ([] : List Row)))
        lmsRowW⟩), ?_, ?_, rfl⟩
    · have hm : lmsMap (lessonColumns ([lmsRowW] ++ ([] : List Row)))
          ([lmsRowW] ++ ([] : List Row)) =
          [("w@x.com",
            ⟨lmsRowW, calculateRate (lessonColumns ([lmsRowW] ++ ([] : List Row)))
              lmsRowW⟩)] := rfl
      rw [hm]
      exact List.mem_singleton.2 rfl
    · decide
  rcases c3_merge_precedence [lmsRowW] [] [] _ hr with ⟨kv, hkv, hrate, hdist, -⟩
  exact ⟨kv, hkv, hrate, hdist⟩

/-- Closed witness for the suppression claim: a merged record with empty id,
email and display name but a non-empty phone is not pushed. -/
theorem c7_suppression_witness :
    (finalRowOf [] ("k", ⟨[("Phone number (Whatsapp)", .str "0550000000")], 0⟩)).phone
      ≠ "" ∧
    buildFinal [] []
      ("k", ⟨[("Phone number (Whatsapp)", .str "0550000000")], 0⟩) = [] :=
  ⟨by decide,
   (c7_suppression.2.2 [] []
      ("k", ⟨[("Phone number (Whatsapp)", .str "0550000000")], 0⟩)).2
     ⟨by decide, by decide, by decide⟩⟩

/-! ## Sorting and grouping lemmas -/

/-- The descending order used by the pivot sort. -/
def GeTotal (a b : GroupStats) : Prop := b.total ≤ a.total

theorem insertDesc_perm (g : GroupStats) :
    ∀ l : List GroupStats, List.Perm (insertDesc g l) (g :: l) := by
  intro l
  induction l with
  | nil => rfl
  | cons h t ih =>
    rw [insertDesc]
    by_cases hle : g.total ≤ h.total
    · rw [if_pos hle]
      exact (ih.cons h).trans (List.Perm.swap g h t)
    · rw [if_neg hle]

theorem sortGroups_aux_perm :
    ∀ (l acc : List GroupStats),
      List.Perm (l.foldl (fun a g => insertDesc g a) acc) (acc ++ l) := by
  intro l
  induction l with
  | nil => intro acc; simp
  | cons h t ih =>
    intro acc
    rw [List.foldl_cons]
    refine (ih (insertDesc h acc)).trans ?_
    refine (((insertDesc_perm h acc).append_right t).trans ?_)
    exact List.perm_middle.symm

theorem sortGroups_perm (l : List GroupStats) :
    List.Perm (sortGroups l) l := by
  have := sortGroups_aux_perm l []
  rw [List.nil_append] at this
  exact this

theorem insertDesc_pairwise {l : List GroupStats} (g : GroupStats)
    (h : List.Pairwise GeTotal l) : List.Pairwise GeTotal (insertDesc g l) := by
  induction l with
  | nil => simp [insertDesc, List.pairwise_singleton]
  | cons a t ih =>
    rw [insertDesc]
    by_cases hle : g.total ≤ a.total
    · rw [if_pos hle]
      rw [List.pairwise_cons]
      refine ⟨?_, ih (List.pairwise_cons.1 h).2⟩
      intro x hx
      rcases List.mem_cons.1 ((insertDesc_perm g t).mem_iff.1 hx) with rfl | hxt
      · exact hle
      · exact (List.pairwise_cons.1 h).1 x hxt
    · rw [if_neg hle]
      rw [List.pairwise_cons]
      refine ⟨?_, h⟩
      intro x hx
      rcases List.mem_cons.1 hx with rfl | hxt
      · exact le_of_not_le hle
      · exact le_trans ((List.pairwise_cons.1 h).1 x hxt) (le_of_not_le hle)

theorem sortGroups_aux_pairwise :
    ∀ (l acc : List GroupStats), List.Pairwise GeTotal acc →
      List.Pairwise GeTotal (l.foldl (fun a g => insertDesc g a) acc) := by
  intro l
  induction l with
  | nil => intro acc h; exact h
  | cons h t ih =>
    intro acc hacc
    rw [List.foldl_cons]
    exact ih _ (insertDesc_pairwise h hacc)

theorem sortGroups_pairwise (l : List GroupStats) :
    List.Pairwise GeTotal (sortGroups l) :=
  sortGroups_aux_pairwise l [] List.Pairwise.nil

theorem insertDesc_filter (t : Nat) (g : GroupStats) :
    ∀ l : List GroupStats, List.Pairwise GeTotal l →
      (insertDesc g l).filter (fun x => x.total == t) =
        l.filter (fun x => x.total == t) ++
          [g].filter (fun x => x.total == t) := by
  intro l
  induction l with
  | nil => intro _; simp [insertDesc]
  | cons a tl ih =>
    intro hp
    rw [insertDesc]
    by_cases hle : g.total ≤ a.total
    · rw [if_pos hle]
      rw [List.filter_cons, List.filter_cons]
      by_cases hpa : (a.total == t) = true
      · rw [if_pos hpa, if_pos hpa]
        rw [ih (List.pairwise_cons.1 hp).2]
        rfl
      · rw [if_neg hpa, if_neg hpa]
        exact ih (List.pairwise_cons.1 hp).2
    · rw [if_neg hle]
      by_cases hpg : (g.total == t) = true
      · have hnil : (a :: tl).filter (fun x => x.total == t) = [] := by
          rw [List.filter_eq_nil_iff]
          intro x hx
          have hxa : x.total ≤ a.total := by
            rcases List.mem_cons.1 hx with rfl | hxt
            · exact le_refl _
            · exact (List.pairwise_cons.1 hp).1 x hxt
          have hgt : a.total < g.total := lt_of_not_le hle
          have hxne : x.total ≠ t := by
            have hgtt := beq_iff_eq.1 hpg
            omega
          simp [hxne]
        rw [List.filter_cons, if_pos hpg, hnil]
        simp [List.filter, hpg]
      · rw [List.filter_cons, if_neg hpg]
        simp [List.filter, hpg]

theorem sortGroups_aux_filter (t : Nat) :
    ∀ (l acc : List GroupStats), List.Pairwise GeTotal acc →
      (l.foldl (fun a g => insertDesc g a) acc).filter (fun x => x.total == t) =
        acc.filter (fun x => x.total == t) ++ l.filter (fun x => x.total == t) := by
  intro l
  induction l with
  | nil => intro acc _; simp
  | cons h tl ih =>
    intro acc hacc
    rw [List.foldl_cons, ih _ (insertDesc_pairwise h hacc)]
    rw [insertDesc_filter t h acc hacc]
    rw [List.append_assoc]
    congr 1
    by_cases hph : (h.total == t) = true
    · simp [List.filter_cons, List.filter, hph]
    · simp [List.filter_cons, List.filter, hph]

theorem sortGroups_filter (t : Nat) (l : List GroupStats) :
    (sortGroups l).filter (fun x => x.total == t) =
      l.filter (fun x => x.total == t) := by
  have := sortGroups_aux_filter t l [] List.Pairwise.nil
  rw [List.filter_nil, List.nil_append] at this
  exact this

theorem bumpGroup_key (r : FinalReportRow) (g : GroupStats) :
    (bumpGroup r g).key = g.key := by
  rw [bumpGroup]
  by_cases h1 : (999 : ℚ)/1000 ≤ r.completionRate
  · rw [if_pos h1]
  · rw [if_neg h1]
    by_cases h2 : 0 < r.completionRate ∧ r.completionRate < (999 : ℚ)/1000
    · rw [if_pos h2]
    · rw [if_neg h2]

theorem groupStep_map_key (field : FinalReportRow → String)
    (gs : List GroupStats) (r : FinalReportRow) :
    (groupStep field gs r).map (fun g => g.key) =
      addKey (gs.map (fun g => g.key)) (pivotKey field r) := by
  rw [groupStep, addKey]
  have hcont : (gs.map (fun g => g.key)).contains (pivotKey field r) =
      gs.any (fun g => g.key == pivotKey field r) := by
    induction gs with
    | nil => rfl
    | cons a tl ih =>
      rw [List.map_cons, List.any_cons]
      rw [List.contains_cons]
      rw [ih]
      have hsymm : (pivotKey field r == a.key) = (a.key == pivotKey field r) := by
        by_cases h : a.key = pivotKey field r
        · simp [h]
        · have h2 : ¬pivotKey field r = a.key := fun hc => h hc.symm
          simp [h, h2]
      rw [hsymm]
  rw [hcont]
  by_cases hany : gs.any (fun g => g.key == pivotKey field r) = true
  · rw [if_pos hany, if_pos hany]
    rw [List.map_map]
    apply List.map_congr_left
    intro g _
    simp only [Function.comp]
    by_cases hk : (g.key == pivotKey field r) = true
    · rw [if_pos hk, bumpGroup_key]
    · rw [if_neg hk]
  · rw [if_neg hany, if_neg hany]
    rw [List.map_append, List.map_cons, List.map_nil, bumpGroup_key]

theorem groupsOf_map_key (field : FinalReportRow → String)
    (data : List FinalReportRow) :
    (groupsOf field data).map (fun g => g.key) =
      (data.map (pivotKey field)).foldl addKey [] := by
  rw [groupsOf]
  have aux : ∀ (l : List FinalReportRow) (acc : List GroupStats),
      (l.foldl (groupStep field) acc).map (fun g => g.key) =
        (l.map (pivotKey field)).foldl addKey (acc.map (fun g => g.key)) := by
    intro l
    induction l with
    | nil => intro acc; rfl
    | cons r tl ih =>
      intro acc
      rw [List.foldl_cons, ih, List.map_cons, List.foldl_cons, groupStep_map_key]
  have := aux data []
  rw [List.map_nil] at this
  exact this

theorem mem_foldl_addKey_flat :
    ∀ (l acc : List String) (x : String),
      x ∈ l.foldl addKey acc ↔ x ∈ acc ∨ x ∈ l := by
  intro l
  induction l with
  | nil => simp
  | cons a tl ih =>
    intro acc x
    rw [List.foldl_cons, ih, mem_addKey]
    constructor
    · rintro ((h | rfl) | h)
      · exact Or.inl h
      · exact Or.inr (List.mem_cons_self _ _)
      · exact Or.inr (List.mem_cons_of_mem _ h)
    · rintro (h | h)
      · exact Or.inl (Or.inl h)
      · rcases List.mem_cons.1 h with rfl | h2
        · exact Or.inl (Or.inr rfl)
        · exact Or.inr h2

/-- Insertion-ordered deduplication of a list of keys: the first occurrence
of each key, in first-appearance order. -/
def firstOccurrences (l : List String) : List String :=
  l.foldl addKey []

/-- C9: the dashboard summary counts rows with rate at least 0.999 as
completed, rate strictly between 0 and 0.999 as in progress and rate 0 as
not started, with overall percentage completed/total (0 on an empty result);
each pivot breakdown keys a row by its field value with "(Blank)"
substituted for an empty value, lists exactly the keys occurring in the
data, orders its groups by descending total count, and on total ties keeps
the first-encountered key order. -/
theorem c9_aggregation (data : List FinalReportRow)
    (field : FinalReportRow → String) (t : Nat) :
    (summary data).total = data.length ∧
    (summary data).completed =
      data.countP (fun d => decide ((999 : ℚ)/1000 ≤ d.completionRate)) ∧
    (summary data).inProgress =
      data.countP (fun d =>
        decide (0 < d.completionRate ∧ d.completionRate < (999 : ℚ)/1000)) ∧
    (summary data).notStarted =
      data.countP (fun d => decide (d.completionRate = 0)) ∧
    (summary data).pct =
      (if data.length = 0 then 0
       else ((summary data).completed : ℚ) / (data.length : ℚ)) ∧
    (∀ k : String,
      (∃ g ∈ createPivotTable field data, g.key = k) ↔
        ∃ r ∈ data, (if field r = "" then "(Blank)" else field r) = k) ∧
    List.Pairwise (fun a b => b.total ≤ a.total) (createPivotTable field data) ∧
    (createPivotTable field data).filter (fun g => g.total == t) =
      (groupsOf field data).filter (fun g => g.total == t) ∧
    (groupsOf field data).map (fun g => g.key) =
      firstOccurrences (data.map (pivotKey field)) := by
  refine ⟨rfl, Eq.symm (List.countP_eq_length_filter _ data),
    Eq.symm (List.countP_eq_length_filter _ data),
    Eq.symm (List.countP_eq_length_filter _ data), ?_, ?_, ?_, ?_, ?_⟩
  · show (if 0 < data.length then
        ((data.filter (fun d => decide ((999 : ℚ)/1000 ≤ d.completionRate))).length : ℚ) /
          (data.length : ℚ)
      else 0) = _
    by_cases h : data.length = 0
    · rw [if_neg (by omega), if_pos h]
    · rw [if_pos (Nat.pos_of_ne_zero h), if_neg h]
      rfl
  · intro k
    have h1 : (∃ g ∈ createPivotTable field data, g.key = k) ↔
        k ∈ (createPivotTable field data).map (fun g => g.key) := by
      rw [List.mem_map]
    rw [h1]
    have h2 : k ∈ (createPivotTable field data).map (fun g => g.key) ↔
        k ∈ (groupsOf field data).map (fun g => g.key) :=
      ((sortGroups_perm (groupsOf field data)).map (fun g => g.key)).mem_iff
    rw [h2, groupsOf_map_key]
    rw [mem_foldl_addKey_flat (data.map (pivotKey field)) [] k]
    simp only [List.not_mem_nil, false_or]
    rw [List.mem_map]
    constructor
    · rintro ⟨r, hr, rfl⟩; exact ⟨r, hr, rfl⟩
    · rintro ⟨r, hr, hk⟩; exact ⟨r, hr, hk⟩
  · exact sortGroups_pairwise (groupsOf field data)
  · exact sortGroups_filter t (groupsOf field data)
  · exact groupsOf_map_key field data

end ExcelService
